import Mathlib

/-!
Verification development for the `cf.rs` CFRS interpreter.

The Rust sources are shallowly embedded as follows:
* `src/enums.rs`   — `CFRColor`, `CFRDirection` become Lean inductives.
* `src/buffer.rs`  — `CFRBuffer` holds `width`, `height` (the Rust `u32`
  fields, modelled as `Nat`; no claim here exercises 32-bit overflow) and
  `data : List CFRColor`.  The panicking vector index of `get_rgb` /
  `get_rgba` is modelled by `Option` (`none` = index panic).
* `src/painter.rs` — `CFRPainter` with `change_color`, `rotate`,
  `move_forward_and_draw`.  The Rust in-place mutation becomes explicit
  state passing; the write `buffer.data[index] = color` is modelled with
  `List.set` (all writes reached by the claims are proved in range).
* `src/executor.rs` — `CommandExecutorState`, `CommandExecutor`, `step`,
  and `run`.  The Rust command `String` is modelled as `List Char`
  (indexing and one-character `replace_range` coincide with list `get`
  and `List.set` for the ASCII command alphabet).  `run`'s unbounded
  `loop` is modelled by the fuelled `runFuel`, with `none` meaning the
  fuel ran out; termination is then a theorem, not an assumption.
-/

namespace CFRS

/-- Colors of `src/enums.rs` (`CFRColor`). -/
inductive CFRColor where
  | White
  | Black
  | Blue
  | Green
  | Cyan
  | Red
  | Magenta
  | Yellow
  deriving DecidableEq, Repr

/-- Directions of `src/enums.rs` (`CFRDirection`). -/
inductive CFRDirection where
  | Up
  | UpRight
  | Right
  | DownRight
  | Down
  | DownLeft
  | Left
  | UpLeft
  deriving DecidableEq, Repr

/-- The pixel buffer of `src/buffer.rs` (`CFRBuffer`). -/
structure CFRBuffer where
  width : Nat
  height : Nat
  data : List CFRColor
  deriving DecidableEq, Repr

/-- `CFRBuffer::new`: every cell initialised to `Black`. -/
def CFRBuffer.new (width height : Nat) : CFRBuffer :=
  { width := width, height := height
    data := List.replicate (width * height) CFRColor.Black }

/-- The `image` crate's `Rgb<u8>` pixel, as used by `get_rgb`. -/
structure Rgb where
  r : Nat
  g : Nat
  b : Nat
  deriving DecidableEq, Repr

/-- The `image` crate's `Rgba<u8>` pixel, as used by `get_rgba`. -/
structure Rgba where
  r : Nat
  g : Nat
  b : Nat
  a : Nat
  deriving DecidableEq, Repr

/-- The `match color` table inside `CFRBuffer::get_rgb`. -/
def colorRgb : CFRColor → Rgb
  | CFRColor.White => ⟨255, 255, 255⟩
  | CFRColor.Black => ⟨0, 0, 0⟩
  | CFRColor.Blue => ⟨0, 0, 255⟩
  | CFRColor.Green => ⟨0, 255, 0⟩
  | CFRColor.Cyan => ⟨0, 255, 255⟩
  | CFRColor.Red => ⟨255, 0, 0⟩
  | CFRColor.Magenta => ⟨255, 0, 255⟩
  | CFRColor.Yellow => ⟨255, 255, 0⟩

/-- The `match color` table inside `CFRBuffer::get_rgba`. -/
def colorRgba : CFRColor → Rgba
  | CFRColor.White => ⟨255, 255, 255, 255⟩
  | CFRColor.Black => ⟨0, 0, 0, 255⟩
  | CFRColor.Blue => ⟨0, 0, 255, 255⟩
  | CFRColor.Green => ⟨0, 255, 0, 255⟩
  | CFRColor.Cyan => ⟨0, 255, 255, 255⟩
  | CFRColor.Red => ⟨255, 0, 0, 255⟩
  | CFRColor.Magenta => ⟨255, 0, 255, 255⟩
  | CFRColor.Yellow => ⟨255, 255, 0, 255⟩

/-- `CFRBuffer::get_rgb`: reads `self.data[(y * self.width + x) as usize]`
and converts to `Rgb`.  The vector index panics exactly when the flat
index is out of range, modelled by `none`. -/
def CFRBuffer.get_rgb (buf : CFRBuffer) (x y : Nat) : Option Rgb :=
  (buf.data[y * buf.width + x]?).map colorRgb

/-- `CFRBuffer::get_rgba`, same flat indexing as `get_rgb`. -/
def CFRBuffer.get_rgba (buf : CFRBuffer) (x y : Nat) : Option Rgba :=
  (buf.data[y * buf.width + x]?).map colorRgba

/-- The painter of `src/painter.rs` (`CFRPainter`). -/
structure CFRPainter where
  direction : CFRDirection
  color : CFRColor
  x : Nat
  y : Nat
  deriving DecidableEq, Repr

/-- `CFRPainter::new`: `Up`, `White`, at the origin. -/
def CFRPainter.new : CFRPainter :=
  { direction := CFRDirection.Up, color := CFRColor.White, x := 0, y := 0 }

/-- `CFRPainter::change_color`: the fixed 8-color cycle. -/
def CFRPainter.change_color (p : CFRPainter) : CFRPainter :=
  { p with color :=
      match p.color with
      | CFRColor.White => CFRColor.Black
      | CFRColor.Black => CFRColor.Blue
      | CFRColor.Blue => CFRColor.Green
      | CFRColor.Green => CFRColor.Cyan
      | CFRColor.Cyan => CFRColor.Red
      | CFRColor.Red => CFRColor.Magenta
      | CFRColor.Magenta => CFRColor.Yellow
      | CFRColor.Yellow => CFRColor.White }

/-- `CFRPainter::rotate`: the fixed 8-direction cycle, 45° per step. -/
def CFRPainter.rotate (p : CFRPainter) : CFRPainter :=
  { p with direction :=
      match p.direction with
      | CFRDirection.Up => CFRDirection.UpRight
      | CFRDirection.UpRight => CFRDirection.Right
      | CFRDirection.Right => CFRDirection.DownRight
      | CFRDirection.DownRight => CFRDirection.Down
      | CFRDirection.Down => CFRDirection.DownLeft
      | CFRDirection.DownLeft => CFRDirection.Left
      | CFRDirection.Left => CFRDirection.UpLeft
      | CFRDirection.UpLeft => CFRDirection.Up }

/-- `CFRPainter::move_forward_and_draw`: computes `(dx, dy)` from the
direction, wraps each coordinate toroidally exactly as the three-way
`if` chains in the source, then writes the painter's color at the new
position.  Returns the updated painter and buffer. -/
def CFRPainter.move_forward_and_draw (p : CFRPainter) (buffer : CFRBuffer) :
    CFRPainter × CFRBuffer :=
  let d : Int × Int :=
    match p.direction with
    | CFRDirection.Up => (0, -1)
    | CFRDirection.UpRight => (1, -1)
    | CFRDirection.Right => (1, 0)
    | CFRDirection.DownRight => (1, 1)
    | CFRDirection.Down => (0, 1)
    | CFRDirection.DownLeft => (-1, 1)
    | CFRDirection.Left => (-1, 0)
    | CFRDirection.UpLeft => (-1, -1)
  let dx := d.1
  let dy := d.2
  let newx : Nat :=
    if p.x = 0 ∧ dx = -1 then buffer.width - 1
    else if p.x = buffer.width - 1 ∧ dx = 1 then 0
    else ((p.x : Int) + dx).toNat
  let newy : Nat :=
    if p.y = 0 ∧ dy = -1 then buffer.height - 1
    else if p.y = buffer.height - 1 ∧ dy = 1 then 0
    else ((p.y : Int) + dy).toNat
  let index := newy * buffer.width + newx
  ({ p with x := newx, y := newy },
   { buffer with data := buffer.data.set index p.color })

/-- `CommandExecutorState` of `src/executor.rs`.  `block_starts` is the
Rust `Vec` used as a stack; the Lean list's head is the stack top. -/
structure CommandExecutorState where
  commands : List Char
  index : Nat
  block_starts : List Nat
  deriving DecidableEq, Repr

/-- `CommandExecutor` of `src/executor.rs`; the mutably borrowed buffer
is held by value. -/
structure CommandExecutor where
  state : CommandExecutorState
  buffer : CFRBuffer
  painter : CFRPainter
  deriving DecidableEq, Repr

/-- The two error strings `step` can return
(`"End of commands"` / `"Unmatched ]"`). -/
inductive StepError where
  | EndOfCommands
  | UnmatchedClose
  deriving DecidableEq, Repr

/-- `CommandExecutor::new`: painter at `((width-1)/2, (height-1)/2)`,
cursor at 0, empty stack. -/
def CommandExecutor.new (commands : List Char) (buffer : CFRBuffer) :
    CommandExecutor :=
  { state := { commands := commands, index := 0, block_starts := [] }
    buffer := buffer
    painter :=
      { CFRPainter.new with
        x := (buffer.width - 1) / 2, y := (buffer.height - 1) / 2 } }

/-- `CommandExecutor::position`. -/
def CommandExecutor.position (e : CommandExecutor) : Nat × Nat :=
  (e.painter.x, e.painter.y)

/-- The body of the Rust `match c` inside `CommandExecutor::step`,
dispatching on the current character `c`: `]` with a non-empty stack
rewrites itself to `|` and jumps to the popped start without advancing,
`|` rewrites itself back to `]` and advances, every other arm advances
the cursor by one. -/
def CommandExecutor.stepDispatch (c : Char) (e : CommandExecutor) :
    Except StepError (Bool × CommandExecutor) :=
  if c = 'C' then
      Except.ok (false,
        { e with painter := e.painter.change_color
                 state := { e.state with index := e.state.index + 1 } })
    else if c = 'F' then
      let pb := e.painter.move_forward_and_draw e.buffer
      Except.ok (false,
        { e with painter := pb.1, buffer := pb.2
                 state := { e.state with index := e.state.index + 1 } })
    else if c = 'R' then
      Except.ok (false,
        { e with painter := e.painter.rotate
                 state := { e.state with index := e.state.index + 1 } })
    else if c = 'S' then
      Except.ok (true,
        { e with state := { e.state with index := e.state.index + 1 } })
    else if c = '[' then
      Except.ok (false,
        { e with state :=
            { e.state with
              block_starts := (e.state.index + 1) :: e.state.block_starts
              index := e.state.index + 1 } })
    else if c = ']' then
      match e.state.block_starts with
      | block_start :: rest =>
        Except.ok (false,
          { e with state :=
              { commands := e.state.commands.set e.state.index '|'
                index := block_start
                block_starts := rest } })
      | [] => Except.error StepError.UnmatchedClose
    else if c = '|' then
      Except.ok (false,
        { e with state :=
            { e.state with
              commands := e.state.commands.set e.state.index ']'
              index := e.state.index + 1 } })
    else
      Except.ok (false,
        { e with state := { e.state with index := e.state.index + 1 } })

/-- `CommandExecutor::step`: fail with `"End of commands"` when the
cursor has reached the end, otherwise dispatch on the character at the
cursor. -/
def CommandExecutor.step (e : CommandExecutor) :
    Except StepError (Bool × CommandExecutor) :=
  if h : e.state.index < e.state.commands.length then
    CommandExecutor.stepDispatch (e.state.commands.get ⟨e.state.index, h⟩) e
  else
    Except.error StepError.EndOfCommands

/-- Outcome of `CommandExecutor::run`: `Ok(())` or the propagated
`"Unmatched ]"` error. -/
inductive RunOutcome where
  | ok
  | unmatchedClose
  deriving DecidableEq, Repr

/-- `CommandExecutor::run`, with explicit fuel: repeatedly `step`,
treat `EndOfCommands` as normal completion, propagate `Unmatched ]`.
`none` means the fuel was exhausted (the Rust `loop` has no fuel; the
termination theorem shows enough fuel always exists).  The executor at
the moment of stopping is returned so the final buffer is observable. -/
def CommandExecutor.runFuel : Nat → CommandExecutor →
    Option (RunOutcome × CommandExecutor)
  | 0, _ => none
  | fuel + 1, e =>
    match e.step with
    | Except.ok (_, e') => CommandExecutor.runFuel fuel e'
    | Except.error StepError.EndOfCommands => some (RunOutcome.ok, e)
    | Except.error StepError.UnmatchedClose =>
        some (RunOutcome.unmatchedClose, e)

/-- Ghost observer over `run`: the same iteration as `runFuel`, also
recording the command character dispatched at each step. -/
def CommandExecutor.runTrace : Nat → CommandExecutor →
    Option (List Char × RunOutcome × CommandExecutor)
  | 0, _ => none
  | fuel + 1, e =>
    match e.step with
    | Except.ok (_, e') =>
      match CommandExecutor.runTrace fuel e' with
      | none => none
      | some (tr, out, ef) =>
          some ((e.state.commands[e.state.index]?).toList ++ tr, out, ef)
    | Except.error StepError.EndOfCommands => some ([], RunOutcome.ok, e)
    | Except.error StepError.UnmatchedClose =>
        some ([], RunOutcome.unmatchedClose, e)

/-- The painter operations a command can invoke on the painter/buffer
pair (`C`, `R`, `F`), used to state the position invariant over an
arbitrary operation sequence. -/
inductive PainterOp where
  | changeColor
  | rotate
  | moveDraw
  deriving DecidableEq, Repr

/-- Apply one painter operation to a painter/buffer pair. -/
def applyOp (op : PainterOp) (p : CFRPainter) (b : CFRBuffer) :
    CFRPainter × CFRBuffer :=
  match op with
  | PainterOp.changeColor => (p.change_color, b)
  | PainterOp.rotate => (p.rotate, b)
  | PainterOp.moveDraw => p.move_forward_and_draw b

/-- Apply a sequence of painter operations from left to right. -/
def applyOps : List PainterOp → CFRPainter → CFRBuffer → CFRPainter × CFRBuffer
  | [], p, b => (p, b)
  | op :: ops, p, b =>
    let pb := applyOp op p b
    applyOps ops pb.1 pb.2

/-- Reflexive–transitive closure of successful `step`s: `Steps e e'`
says the executor reaches `e'` from `e` by zero or more steps (the
sleep flag of each step is irrelevant to reachability). -/
inductive Steps : CommandExecutor → CommandExecutor → Prop where
  | refl (e : CommandExecutor) : Steps e e
  | tail {e₁ e₂ e₃ : CommandExecutor} {s : Bool} :
      Steps e₁ e₂ → e₂.step = Except.ok (s, e₃) → Steps e₁ e₃

/-- Command strings over the public alphabet (no executor-internal `|`
marker) whose brackets are fully matched: empty, a non-bracket
character followed by a balanced string, or a matched
`[` body `]` pair followed by a balanced string. -/
inductive Balanced : List Char → Prop where
  | nil : Balanced []
  | other {c : Char} {cs : List Char} :
      c ≠ '[' → c ≠ ']' → c ≠ '|' → Balanced cs → Balanced (c :: cs)
  | bracket {body rest : List Char} :
      Balanced body → Balanced rest →
      Balanced ('[' :: body ++ ']' :: rest)

/-- `OpenChain cs p st`: read from absolute position `p`, the string
`cs` is a sequence of balanced blocks separated by unmatched `[`s —
exactly the `|`-free shape on which no `]` can ever fire on an empty
stack — and `st` lists, most recent (rightmost) first, the index one
past each unmatched `[`.  `st = []` iff `cs` is balanced outright. -/
inductive OpenChain : List Char → Nat → List Nat → Prop where
  | bal {cs : List Char} (p : Nat) : Balanced cs → OpenChain cs p []
  | openBr {B rest : List Char} {p : Nat} {st : List Nat} :
      Balanced B → OpenChain rest (p + B.length + 1) st →
      OpenChain (B ++ '[' :: rest) p (st ++ [p + B.length + 1])

/-- Weight of one command character in the termination measure: a `]`
(which may fire a backward jump) weighs 3, everything else 1. -/
def bracketCost (c : Char) : Nat :=
  if c = ']' then 3 else 1

/-- `phiAux cs p`: weighted sum `Σ bracketCost cs[k] * 4 ^ (p + k)` of a
command suffix starting at absolute position `p`. -/
def phiAux : List Char → Nat → Nat
  | [], _ => 0
  | c :: cs, p => bracketCost c * 4 ^ p + phiAux cs (p + 1)

/-- Termination measure of an executor state: the weighted sum of the
commands from the cursor on.  Every successful `step` strictly
decreases it. -/
def phi (s : CommandExecutorState) : Nat :=
  phiAux (s.commands.drop s.index) s.index

/-- Invariant of the executor state: reading `index` and then the
stack from top to bottom gives a non-increasing chain, so every stored
block start (in particular any jump target) is at most the cursor. -/
def StackInv (s : CommandExecutorState) : Prop :=
  List.Chain' (fun a b => b ≤ a) (s.index :: s.block_starts)

/-! ### Characterisation of one `step` -/

lemma step_eq_dispatch (e : CommandExecutor) (c : Char)
    (h : e.state.commands[e.state.index]? = some c) :
    e.step = CommandExecutor.stepDispatch c e := by
  rcases List.getElem?_eq_some.mp h with ⟨hlt, he⟩
  unfold CommandExecutor.step
  rw [dif_pos hlt]
  simp only [List.get_eq_getElem, he]

lemma step_eq_end (e : CommandExecutor)
    (h : e.state.commands.length ≤ e.state.index) :
    e.step = Except.error StepError.EndOfCommands := by
  unfold CommandExecutor.step
  rw [dif_neg (by omega)]

lemma stepDispatch_C (cmds : List Char) (i : Nat) (bs : List Nat)
    (buf : CFRBuffer) (p : CFRPainter) :
    CommandExecutor.stepDispatch 'C' ⟨⟨cmds, i, bs⟩, buf, p⟩ =
      Except.ok (false, ⟨⟨cmds, i + 1, bs⟩, buf, p.change_color⟩) := rfl

lemma stepDispatch_F (cmds : List Char) (i : Nat) (bs : List Nat)
    (buf : CFRBuffer) (p : CFRPainter) :
    CommandExecutor.stepDispatch 'F' ⟨⟨cmds, i, bs⟩, buf, p⟩ =
      Except.ok (false, ⟨⟨cmds, i + 1, bs⟩,
        (p.move_forward_and_draw buf).2, (p.move_forward_and_draw buf).1⟩) := rfl

lemma stepDispatch_R (cmds : List Char) (i : Nat) (bs : List Nat)
    (buf : CFRBuffer) (p : CFRPainter) :
    CommandExecutor.stepDispatch 'R' ⟨⟨cmds, i, bs⟩, buf, p⟩ =
      Except.ok (false, ⟨⟨cmds, i + 1, bs⟩, buf, p.rotate⟩) := rfl

lemma stepDispatch_S (cmds : List Char) (i : Nat) (bs : List Nat)
    (buf : CFRBuffer) (p : CFRPainter) :
    CommandExecutor.stepDispatch 'S' ⟨⟨cmds, i, bs⟩, buf, p⟩ =
      Except.ok (true, ⟨⟨cmds, i + 1, bs⟩, buf, p⟩) := rfl

lemma stepDispatch_open (cmds : List Char) (i : Nat) (bs : List Nat)
    (buf : CFRBuffer) (p : CFRPainter) :
    CommandExecutor.stepDispatch '[' ⟨⟨cmds, i, bs⟩, buf, p⟩ =
      Except.ok (false, ⟨⟨cmds, i + 1, (i + 1) :: bs⟩, buf, p⟩) := rfl

lemma stepDispatch_close_pop (cmds : List Char) (i b : Nat) (rest : List Nat)
    (buf : CFRBuffer) (p : CFRPainter) :
    CommandExecutor.stepDispatch ']' ⟨⟨cmds, i, b :: rest⟩, buf, p⟩ =
      Except.ok (false, ⟨⟨cmds.set i '|', b, rest⟩, buf, p⟩) := rfl

lemma stepDispatch_close_empty (cmds : List Char) (i : Nat)
    (buf : CFRBuffer) (p : CFRPainter) :
    CommandExecutor.stepDispatch ']' ⟨⟨cmds, i, []⟩, buf, p⟩ =
      Except.error StepError.UnmatchedClose := rfl

lemma stepDispatch_pipe (cmds : List Char) (i : Nat) (bs : List Nat)
    (buf : CFRBuffer) (p : CFRPainter) :
    CommandExecutor.stepDispatch '|' ⟨⟨cmds, i, bs⟩, buf, p⟩ =
      Except.ok (false, ⟨⟨cmds.set i ']', i + 1, bs⟩, buf, p⟩) := rfl

lemma stepDispatch_other (c : Char) (cmds : List Char) (i : Nat)
    (bs : List Nat) (buf : CFRBuffer) (p : CFRPainter)
    (hC : c ≠ 'C') (hF : c ≠ 'F') (hR : c ≠ 'R') (hS : c ≠ 'S')
    (hOpen : c ≠ '[') (hClose : c ≠ ']') (hPipe : c ≠ '|') :
    CommandExecutor.stepDispatch c ⟨⟨cmds, i, bs⟩, buf, p⟩ =
      Except.ok (false, ⟨⟨cmds, i + 1, bs⟩, buf, p⟩) := by
  unfold CommandExecutor.stepDispatch
  rw [if_neg hC, if_neg hF, if_neg hR, if_neg hS, if_neg hOpen,
    if_neg hClose, if_neg hPipe]

/-! ### Claim theorems (concrete runs and the bracket-flip mechanism) -/

/-- C1.  Running `"[F]"` on a freshly constructed 4×4 buffer dispatches
`F` exactly twice (the recorded trace is `[`, `F`, `]`, `F`, `|`), the
run succeeds, and exactly two cells of the final buffer differ from the
`Black` fill.  Moreover, in every state whose current character is `]`
with a non-empty `block_starts`, `step` rewrites that `]` in place to
`|` and jumps to the popped start index, and in every state whose
current character is `|`, `step` rewrites it back to `]` and advances
past it — so each loop body executes exactly twice. -/
theorem exec_loop_body_runs_twice :
    ((CommandExecutor.runTrace 6
        (CommandExecutor.new ['[', 'F', ']'] (CFRBuffer.new 4 4))).map
      (fun r => ((r.1.filter (fun c => c == 'F')).length, r.1, r.2.1,
        (r.2.2.buffer.data.filter (fun c => !(c == CFRColor.Black))).length)) =
      some (2, ['[', 'F', ']', 'F', '|'], RunOutcome.ok, 2))
    ∧ (∀ (cmds : List Char) (i b : Nat) (rest : List Nat)
        (buf : CFRBuffer) (p : CFRPainter),
        cmds[i]? = some ']' →
        CommandExecutor.step ⟨⟨cmds, i, b :: rest⟩, buf, p⟩ =
          Except.ok (false, ⟨⟨cmds.set i '|', b, rest⟩, buf, p⟩))
    ∧ (∀ (cmds : List Char) (i : Nat) (bs : List Nat)
        (buf : CFRBuffer) (p : CFRPainter),
        cmds[i]? = some '|' →
        CommandExecutor.step ⟨⟨cmds, i, bs⟩, buf, p⟩ =
          Except.ok (false, ⟨⟨cmds.set i ']', i + 1, bs⟩, buf, p⟩)) := by
  refine ⟨by decide, ?_, ?_⟩
  · intro cmds i b rest buf p h
    rw [step_eq_dispatch _ ']' h, stepDispatch_close_pop]
  · intro cmds i bs buf p h
    rw [step_eq_dispatch _ '|' h, stepDispatch_pipe]

/-- Witness for C1: the `]`/`|` step facts applied to concrete states. -/
theorem exec_loop_body_runs_twice_witness :
    CommandExecutor.step ⟨⟨[']'], 0, [0]⟩, CFRBuffer.new 1 1, CFRPainter.new⟩ =
      Except.ok (false, ⟨⟨['|'], 0, []⟩, CFRBuffer.new 1 1, CFRPainter.new⟩) ∧
    CommandExecutor.step ⟨⟨['|'], 0, []⟩, CFRBuffer.new 1 1, CFRPainter.new⟩ =
      Except.ok (false, ⟨⟨[']'], 1, []⟩, CFRBuffer.new 1 1, CFRPainter.new⟩) :=
  ⟨exec_loop_body_runs_twice.2.1 [']'] 0 0 [] (CFRBuffer.new 1 1)
      CFRPainter.new (by decide),
   exec_loop_body_runs_twice.2.2 ['|'] 0 [] (CFRBuffer.new 1 1)
      CFRPainter.new (by decide)⟩

/-- C3.  On the single-character command `"]"`, `step` fails at once
with the unmatched-close error, `run` propagates that error for any
amount of fuel, and the executor's buffer is still exactly the initial
buffer. -/
theorem exec_close_alone_unmatched (buf : CFRBuffer) (fuel : Nat) :
    (CommandExecutor.new [']'] buf).step =
      Except.error StepError.UnmatchedClose ∧
    CommandExecutor.runFuel (fuel + 1) (CommandExecutor.new [']'] buf) =
      some (RunOutcome.unmatchedClose, CommandExecutor.new [']'] buf) ∧
    (CommandExecutor.new [']'] buf).buffer = buf :=
  ⟨rfl, rfl, rfl⟩

/-- Witness for C3 at a concrete 4×4 buffer and fuel 0. -/
theorem exec_close_alone_unmatched_witness :
    CommandExecutor.runFuel 1 (CommandExecutor.new [']'] (CFRBuffer.new 4 4)) =
      some (RunOutcome.unmatchedClose,
        CommandExecutor.new [']'] (CFRBuffer.new 4 4)) :=
  (exec_close_alone_unmatched (CFRBuffer.new 4 4) 0).2.1

/-- C4.  On a fresh 4×4 buffer the executor starts at the centre
`(1, 1)` (the `(width-1)/2` rule) with colour `White` and direction
`Up`; running `"F"` writes `White` into the cell at `(1, 0)` (flat
index `0*4+1`), and running `"CF"` writes `Black`, the second colour of
the cycle, into that same cell. -/
theorem exec_end_to_end_4x4 :
    (CommandExecutor.new ['F'] (CFRBuffer.new 4 4)).position = (1, 1) ∧
    (CommandExecutor.new ['F'] (CFRBuffer.new 4 4)).painter.color =
      CFRColor.White ∧
    (CommandExecutor.new ['F'] (CFRBuffer.new 4 4)).painter.direction =
      CFRDirection.Up ∧
    (CommandExecutor.runFuel 2 (CommandExecutor.new ['F'] (CFRBuffer.new 4 4))).map
      (fun r => (r.1, r.2.buffer.data[0 * 4 + 1]?, r.2.painter.x, r.2.painter.y)) =
      some (RunOutcome.ok, some CFRColor.White, 1, 0) ∧
    (CommandExecutor.runFuel 3
        (CommandExecutor.new ['C', 'F'] (CFRBuffer.new 4 4))).map
      (fun r => (r.1, r.2.buffer.data[0 * 4 + 1]?)) =
      some (RunOutcome.ok, some CFRColor.Black) := by
  decide

/-- C7.  Eight `change_color` calls return any painter to its original
state (so to its original colour), one call follows the fixed cycle
White→Black→Blue→Green→Cyan→Red→Magenta→Yellow→White, and
`change_color` leaves position and direction untouched (it does not
even receive a buffer). -/
theorem painter_color_cycle (p : CFRPainter) :
    p.change_color.change_color.change_color.change_color.change_color.change_color.change_color.change_color
      = p ∧
    p.change_color.x = p.x ∧ p.change_color.y = p.y ∧
    p.change_color.direction = p.direction ∧
    (p.color = CFRColor.White → p.change_color.color = CFRColor.Black) ∧
    (p.color = CFRColor.Black → p.change_color.color = CFRColor.Blue) ∧
    (p.color = CFRColor.Blue → p.change_color.color = CFRColor.Green) ∧
    (p.color = CFRColor.Green → p.change_color.color = CFRColor.Cyan) ∧
    (p.color = CFRColor.Cyan → p.change_color.color = CFRColor.Red) ∧
    (p.color = CFRColor.Red → p.change_color.color = CFRColor.Magenta) ∧
    (p.color = CFRColor.Magenta → p.change_color.color = CFRColor.Yellow) ∧
    (p.color = CFRColor.Yellow → p.change_color.color = CFRColor.White) := by
  obtain ⟨d, c, x, y⟩ := p
  cases c <;> simp [CFRPainter.change_color]

/-- Witness for C7: the cycle facts at the default painter. -/
theorem painter_color_cycle_witness :
    CFRPainter.new.change_color.color = CFRColor.Black :=
  (painter_color_cycle CFRPainter.new).2.2.2.2.1 rfl

/-- C8, counterexample.  On a 2×2 buffer the coordinate `x = 2` is out
of bounds (`x ≥ width = 2`), yet `get_rgb`/`get_rgba` succeed: the flat
index `0*2+2 = 2` is still inside the data vector, so the claim that
every out-of-bounds read fails is false — the read silently aliases the
cell `(0, 1)`. -/
theorem buffer_get_oob_succeeds :
    (CFRBuffer.new 2 2).width = 2 ∧ (CFRBuffer.new 2 2).height = 2 ∧
    (CFRBuffer.new 2 2).get_rgb 2 0 = some (colorRgb CFRColor.Black) ∧
    (CFRBuffer.new 2 2).get_rgba 2 0 = some (colorRgba CFRColor.Black) := by
  decide

/-- C8, amended.  `get_rgb`/`get_rgba` fail exactly when the flat
row-major index `y·width + x` falls outside the data vector; whenever
that flat index is in range — including out-of-bounds `(x, y)` pairs
that alias another cell — they succeed and return the colour stored at
that flat index. -/
theorem buffer_get_flat_index_bound (buf : CFRBuffer) (x y : Nat) :
    (buf.get_rgb x y = none ↔ buf.data.length ≤ y * buf.width + x) ∧
    (buf.get_rgba x y = none ↔ buf.data.length ≤ y * buf.width + x) ∧
    (∀ hlt : y * buf.width + x < buf.data.length,
      buf.get_rgb x y = some (colorRgb (buf.data.get ⟨y * buf.width + x, hlt⟩)) ∧
      buf.get_rgba x y = some (colorRgba (buf.data.get ⟨y * buf.width + x, hlt⟩))) := by
  refine ⟨?_, ?_, ?_⟩
  · simp [CFRBuffer.get_rgb, List.getElem?_eq_none_iff]
  · simp [CFRBuffer.get_rgba, List.getElem?_eq_none_iff]
  · intro hlt
    constructor
    · simp [CFRBuffer.get_rgb, List.getElem?_eq_getElem hlt]
    · simp [CFRBuffer.get_rgba, List.getElem?_eq_getElem hlt]

/-- Witness for C8's amended theorem: on the 2×2 buffer, reading the
in-range aliasing coordinates `(2, 0)` succeeds with the colour of flat
index 2. -/
theorem buffer_get_flat_index_bound_witness :
    (CFRBuffer.new 2 2).get_rgb 2 0 =
      some (colorRgb ((CFRBuffer.new 2 2).data.get ⟨2, by decide⟩)) :=
  ((buffer_get_flat_index_bound (CFRBuffer.new 2 2) 2 0).2.2 (by decide)).1

/-! ### Painter movement: wrap-around and the position invariant -/

lemma flat_index_lt (x y w h : Nat) (hx : x < w) (hy : y < h) :
    y * w + x < w * h := by
  calc y * w + x < y * w + w := by omega
    _ = (y + 1) * w := by ring
    _ ≤ h * w := Nat.mul_le_mul_right w hy
    _ = w * h := Nat.mul_comm h w

lemma move_buffer_shape (p : CFRPainter) (b : CFRBuffer) :
    (p.move_forward_and_draw b).2.width = b.width ∧
    (p.move_forward_and_draw b).2.height = b.height ∧
    (p.move_forward_and_draw b).2.data.length = b.data.length := by
  obtain ⟨d, c, x, y⟩ := p
  cases d <;> simp [CFRPainter.move_forward_and_draw]

lemma move_keeps_color_direction (p : CFRPainter) (b : CFRBuffer) :
    (p.move_forward_and_draw b).1.color = p.color ∧
    (p.move_forward_and_draw b).1.direction = p.direction := by
  obtain ⟨d, c, x, y⟩ := p
  cases d <;> exact ⟨rfl, rfl⟩

lemma move_data_eq (p : CFRPainter) (b : CFRBuffer) :
    (p.move_forward_and_draw b).2.data =
      b.data.set
        ((p.move_forward_and_draw b).1.y * b.width +
          (p.move_forward_and_draw b).1.x) p.color := by
  obtain ⟨d, c, x, y⟩ := p
  cases d <;> rfl

lemma move_pos_lt (p : CFRPainter) (b : CFRBuffer)
    (hw : 1 ≤ b.width) (hh : 1 ≤ b.height)
    (hx : p.x < b.width) (hy : p.y < b.height) :
    (p.move_forward_and_draw b).1.x < b.width ∧
    (p.move_forward_and_draw b).1.y < b.height := by
  obtain ⟨d, c, x, y⟩ := p
  simp only at hx hy
  cases d <;> refine ⟨?_, ?_⟩ <;>
    simp [CFRPainter.move_forward_and_draw] <;> (try split_ifs) <;> omega

/-- C2.  Toroidal wrap-around of `move_forward_and_draw` on any buffer
with `width ≥ 1`, `height ≥ 1` and an in-bounds painter: `Left` from
`x = 0` lands on `x = width−1` with `y` unchanged, `Right` from
`x = width−1` lands on `x = 0`, the analogous wraps hold for `y` with
`Up`/`Down`, a diagonal such as `UpLeft` from `(0,0)` wraps both axes
independently to `(width−1, height−1)` (and `UpRight` off no edge moves
both axes by exactly 1); in non-edge cases the moved coordinate changes
by exactly ±1; and afterwards the painter's colour sits in the buffer
cell at the new position. -/
theorem painter_toroidal_wrap (b : CFRBuffer) (p : CFRPainter)
    (hw : 1 ≤ b.width) (hh : 1 ≤ b.height)
    (hx : p.x < b.width) (hy : p.y < b.height)
    (hlen : b.data.length = b.width * b.height) :
    (p.direction = CFRDirection.Left → p.x = 0 →
      (p.move_forward_and_draw b).1.x = b.width - 1 ∧
      (p.move_forward_and_draw b).1.y = p.y) ∧
    (p.direction = CFRDirection.Right → p.x = b.width - 1 →
      (p.move_forward_and_draw b).1.x = 0 ∧
      (p.move_forward_and_draw b).1.y = p.y) ∧
    (p.direction = CFRDirection.Up → p.y = 0 →
      (p.move_forward_and_draw b).1.y = b.height - 1 ∧
      (p.move_forward_and_draw b).1.x = p.x) ∧
    (p.direction = CFRDirection.Down → p.y = b.height - 1 →
      (p.move_forward_and_draw b).1.y = 0 ∧
      (p.move_forward_and_draw b).1.x = p.x) ∧
    (p.direction = CFRDirection.UpLeft → p.x = 0 → p.y = 0 →
      (p.move_forward_and_draw b).1.x = b.width - 1 ∧
      (p.move_forward_and_draw b).1.y = b.height - 1) ∧
    (p.direction = CFRDirection.Left → p.x ≠ 0 →
      (p.move_forward_and_draw b).1.x = p.x - 1 ∧
      (p.move_forward_and_draw b).1.y = p.y) ∧
    (p.direction = CFRDirection.Right → p.x ≠ b.width - 1 →
      (p.move_forward_and_draw b).1.x = p.x + 1 ∧
      (p.move_forward_and_draw b).1.y = p.y) ∧
    (p.direction = CFRDirection.Up → p.y ≠ 0 →
      (p.move_forward_and_draw b).1.y = p.y - 1 ∧
      (p.move_forward_and_draw b).1.x = p.x) ∧
    (p.direction = CFRDirection.Down → p.y ≠ b.height - 1 →
      (p.move_forward_and_draw b).1.y = p.y + 1 ∧
      (p.move_forward_and_draw b).1.x = p.x) ∧
    (p.direction = CFRDirection.UpRight → p.x ≠ b.width - 1 → p.y ≠ 0 →
      (p.move_forward_and_draw b).1.x = p.x + 1 ∧
      (p.move_forward_and_draw b).1.y = p.y - 1) ∧
    (p.move_forward_and_draw b).2.data[(p.move_forward_and_draw b).1.y *
        b.width + (p.move_forward_and_draw b).1.x]? = some p.color := by
  have hpos := move_pos_lt p b hw hh hx hy
  refine ⟨?_, ?_, ?_, ?_, ?_, ?_, ?_, ?_, ?_, ?_, ?_⟩
  · intro h1 h2
    simp [CFRPainter.move_forward_and_draw, h1, h2] <;> omega
  · intro h1 h2
    simp [CFRPainter.move_forward_and_draw, h1, h2] <;> omega
  · intro h1 h2
    simp [CFRPainter.move_forward_and_draw, h1, h2] <;> omega
  · intro h1 h2
    simp [CFRPainter.move_forward_and_draw, h1, h2] <;> omega
  · intro h1 h2 h3
    simp [CFRPainter.move_forward_and_draw, h1, h2, h3] <;> omega
  · intro h1 h2
    simp [CFRPainter.move_forward_and_draw, h1, h2] <;> omega
  · intro h1 h2
    simp [CFRPainter.move_forward_and_draw, h1, h2] <;> omega
  · intro h1 h2
    simp [CFRPainter.move_forward_and_draw, h1, h2] <;> omega
  · intro h1 h2
    simp [CFRPainter.move_forward_and_draw, h1, h2] <;> omega
  · intro h1 h2 h3
    simp [CFRPainter.move_forward_and_draw, h1, h2, h3] <;> omega
  · rw [move_data_eq p b]
    exact List.getElem?_set_eq_of_lt p.color
      (by rw [hlen]; exact flat_index_lt _ _ _ _ hpos.1 hpos.2)

/-- Witness for C2: a `Left` move from `x = 0` on a 3×3 buffer wraps to
`x = width − 1` and keeps `y`. -/
theorem painter_toroidal_wrap_witness :
    ((⟨CFRDirection.Left, CFRColor.White, 0, 1⟩ : CFRPainter).move_forward_and_draw
        (CFRBuffer.new 3 3)).1.x = (CFRBuffer.new 3 3).width - 1 ∧
    ((⟨CFRDirection.Left, CFRColor.White, 0, 1⟩ : CFRPainter).move_forward_and_draw
        (CFRBuffer.new 3 3)).1.y = 1 :=
  (painter_toroidal_wrap (CFRBuffer.new 3 3)
    ⟨CFRDirection.Left, CFRColor.White, 0, 1⟩ (by decide) (by decide)
    (by decide) (by decide) (by decide)).1 rfl rfl

/-- C6.  The in-bounds position is an invariant: on a buffer with
`width ≥ 1`, `height ≥ 1` and the documented size invariant
`data.length = width·height`, any sequence of `change_color`, `rotate`
and `move_forward_and_draw` operations keeps `x < width` and
`y < height`, keeps the buffer's shape and size invariant, and keeps
the flat draw index `y·width + x` strictly inside the data — so the
unchecked vector write in the source is always in range and none of
the operations can fail. -/
theorem painter_position_invariant (ops : List PainterOp) (p : CFRPainter)
    (b : CFRBuffer) (hw : 1 ≤ b.width) (hh : 1 ≤ b.height)
    (hx : p.x < b.width) (hy : p.y < b.height)
    (hlen : b.data.length = b.width * b.height) :
    (applyOps ops p b).1.x < (applyOps ops p b).2.width ∧
    (applyOps ops p b).1.y < (applyOps ops p b).2.height ∧
    (applyOps ops p b).2.width = b.width ∧
    (applyOps ops p b).2.height = b.height ∧
    (applyOps ops p b).2.data.length =
      (applyOps ops p b).2.width * (applyOps ops p b).2.height ∧
    (applyOps ops p b).1.y * (applyOps ops p b).2.width +
        (applyOps ops p b).1.x < (applyOps ops p b).2.data.length := by
  induction ops generalizing p b with
  | nil =>
    refine ⟨hx, hy, rfl, rfl, hlen, ?_⟩
    simp only [applyOps]
    rw [hlen]
    exact flat_index_lt _ _ _ _ hx hy
  | cons op ops ih =>
    cases op with
    | changeColor =>
      simpa [applyOps, applyOp] using ih p.change_color b hw hh hx hy hlen
    | rotate =>
      simpa [applyOps, applyOp] using ih p.rotate b hw hh hx hy hlen
    | moveDraw =>
      obtain ⟨hsw, hsh, hsl⟩ := move_buffer_shape p b
      obtain ⟨hx', hy'⟩ := move_pos_lt p b hw hh hx hy
      have := ih (p.move_forward_and_draw b).1 (p.move_forward_and_draw b).2
        (by omega) (by omega) (by omega) (by omega)
        (by rw [hsl, hsw, hsh, hlen])
      simpa [applyOps, applyOp, hsw, hsh, hsl] using this

/-- Witness for C6: one `F` from the in-bounds painter `(1, 1)` on a
fresh 4×4 buffer keeps the position in bounds. -/
theorem painter_position_invariant_witness :
    (applyOps [PainterOp.moveDraw]
        ⟨CFRDirection.Up, CFRColor.White, 1, 1⟩ (CFRBuffer.new 4 4)).1.x <
      (applyOps [PainterOp.moveDraw]
        ⟨CFRDirection.Up, CFRColor.White, 1, 1⟩ (CFRBuffer.new 4 4)).2.width ∧
    (applyOps [PainterOp.moveDraw]
        ⟨CFRDirection.Up, CFRColor.White, 1, 1⟩ (CFRBuffer.new 4 4)).1.y <
      (applyOps [PainterOp.moveDraw]
        ⟨CFRDirection.Up, CFRColor.White, 1, 1⟩ (CFRBuffer.new 4 4)).2.height :=
  ⟨(painter_position_invariant [PainterOp.moveDraw]
      ⟨CFRDirection.Up, CFRColor.White, 1, 1⟩ (CFRBuffer.new 4 4)
      (by decide) (by decide) (by decide) (by decide) (by decide)).1,
   (painter_position_invariant [PainterOp.moveDraw]
      ⟨CFRDirection.Up, CFRColor.White, 1, 1⟩ (CFRBuffer.new 4 4)
      (by decide) (by decide) (by decide) (by decide) (by decide)).2.1⟩

/-- C9, counterexample.  The command string `"]["` contains a `[` with
no matching `]` (its only `]` sits at index 0, before the `[`, and
fires on an empty stack), yet `run` does not complete successfully: it
fails with the unmatched-close error.  So "run still completes
successfully for every command string containing an unmatched `[`" is
false as stated. -/
theorem exec_unmatched_open_cex :
    '[' ∈ [']', '['] ∧ [']', '['][0]? = some ']' ∧
    [']', '['][1]? = some '[' ∧
    CommandExecutor.runFuel 1
        (CommandExecutor.new [']', '['] (CFRBuffer.new 2 2)) =
      some (RunOutcome.unmatchedClose,
        CommandExecutor.new [']', '['] (CFRBuffer.new 2 2)) := by
  decide

/-! ### Termination of `run` -/

lemma bracketCost_pos (c : Char) : 1 ≤ bracketCost c := by
  unfold bracketCost
  split <;> omega

lemma bracketCost_le (c : Char) : bracketCost c ≤ 3 := by
  unfold bracketCost
  split <;> omega

lemma phiAux_drop (l : List Char) (i : Nat) (h : i < l.length) :
    phiAux (l.drop i) i =
      bracketCost l[i] * 4 ^ i + phiAux (l.drop (i + 1)) (i + 1) := by
  rw [List.drop_eq_getElem_cons h]
  rfl

lemma drop_set_of_lt (l : List Char) (a : Char) :
    ∀ (n m : Nat), n < m → (l.set n a).drop m = l.drop m := by
  induction l with
  | nil => intro n m _; simp
  | cons c cs ih =>
    intro n m hnm
    cases n with
    | zero =>
      cases m with
      | zero => omega
      | succ m => simp
    | succ n =>
      cases m with
      | zero => omega
      | succ m =>
        simp only [List.set_cons_succ, List.drop_succ_cons]
        exact ih n m (by omega)

lemma phiAux_mono (l : List Char) :
    ∀ (k b : Nat), phiAux (l.drop b) b + 4 ^ b ≤
      phiAux (l.drop (b + k)) (b + k) + 4 ^ (b + k) := by
  intro k
  induction k with
  | zero => intro b; simp
  | succ k ih =>
    intro b
    have h1 : phiAux (l.drop b) b + 4 ^ b ≤
        phiAux (l.drop (b + 1)) (b + 1) + 4 ^ (b + 1) := by
      by_cases h : b < l.length
      · rw [phiAux_drop l b h]
        have hc := bracketCost_le l[b]
        have h4 : (4:Nat) ^ (b + 1) = 4 * 4 ^ b := by ring
        have h5 : bracketCost l[b] * 4 ^ b ≤ 3 * 4 ^ b :=
          Nat.mul_le_mul_right _ hc
        omega
      · have hb : l.drop b = [] := List.drop_eq_nil_of_le (by omega)
        have hb1 : l.drop (b + 1) = [] := List.drop_eq_nil_of_le (by omega)
        rw [hb, hb1]
        have h6 : (4:Nat) ^ b ≤ 4 ^ (b + 1) :=
          Nat.pow_le_pow_right (by omega) (by omega)
        simpa [phiAux] using h6
    calc phiAux (l.drop b) b + 4 ^ b ≤ _ := h1
      _ ≤ _ := by
          have h7 := ih (b + 1)
          rwa [show b + 1 + k = b + (k + 1) by omega] at h7

lemma phi_advance_lt (l l' : List Char) (i : Nat) (hlt : i < l.length)
    (hdrop : l'.drop (i + 1) = l.drop (i + 1)) :
    phiAux (l'.drop (i + 1)) (i + 1) < phiAux (l.drop i) i := by
  rw [hdrop, phiAux_drop l i hlt]
  have h1 := bracketCost_pos l[i]
  have h2 : 0 < 4 ^ i := pow_pos (by omega) i
  have h3 : 0 < bracketCost l[i] * 4 ^ i := Nat.mul_pos (by omega) h2
  omega

lemma stackInv_advance (i : Nat) (bs : List Nat)
    (h : List.Chain' (fun a b => b ≤ a) (i :: bs)) :
    List.Chain' (fun a b => b ≤ a) ((i + 1) :: bs) := by
  rcases bs with _ | ⟨b, rest⟩
  · simp
  · rw [List.chain'_cons] at h ⊢
    exact ⟨by omega, h.2⟩

lemma stepDispatch_ne_end (c : Char) (e : CommandExecutor) :
    CommandExecutor.stepDispatch c e ≠ Except.error StepError.EndOfCommands := by
  obtain ⟨⟨l, i, bs⟩, buf, p⟩ := e
  unfold CommandExecutor.stepDispatch
  split_ifs <;> (try simp) <;> (rcases bs with _ | ⟨b, rest⟩ <;> simp)

lemma step_end_ge (e : CommandExecutor)
    (h : e.step = Except.error StepError.EndOfCommands) :
    e.state.commands.length ≤ e.state.index := by
  by_contra hc
  push_neg at hc
  have hd := step_eq_dispatch e e.state.commands[e.state.index]
    (List.getElem?_eq_getElem hc)
  rw [hd] at h
  exact stepDispatch_ne_end _ _ h

lemma step_ok_props (e e' : CommandExecutor) (s : Bool)
    (hstep : e.step = Except.ok (s, e'))
    (hinv : StackInv e.state) :
    phi e'.state < phi e.state ∧ StackInv e'.state := by
  obtain ⟨⟨l, i, bs⟩, buf, p⟩ := e
  have hlt : i < l.length := by
    by_contra h
    rw [step_eq_end _ (by simpa using Nat.le_of_not_lt h)] at hstep
    exact absurd hstep (by simp)
  have hdisp := step_eq_dispatch ⟨⟨l, i, bs⟩, buf, p⟩ l[i]
    (List.getElem?_eq_getElem hlt)
  rw [hdisp] at hstep
  unfold CommandExecutor.stepDispatch at hstep
  simp only at hinv
  split_ifs at hstep with hC hF hR hS hO hCl hP
  · rw [Except.ok.injEq, Prod.mk.injEq] at hstep
    obtain ⟨hs, he⟩ := hstep
    subst he
    exact ⟨phi_advance_lt l l i hlt rfl, stackInv_advance i bs hinv⟩
  · rw [Except.ok.injEq, Prod.mk.injEq] at hstep
    obtain ⟨hs, he⟩ := hstep
    subst he
    exact ⟨phi_advance_lt l l i hlt rfl, stackInv_advance i bs hinv⟩
  · rw [Except.ok.injEq, Prod.mk.injEq] at hstep
    obtain ⟨hs, he⟩ := hstep
    subst he
    exact ⟨phi_advance_lt l l i hlt rfl, stackInv_advance i bs hinv⟩
  · rw [Except.ok.injEq, Prod.mk.injEq] at hstep
    obtain ⟨hs, he⟩ := hstep
    subst he
    exact ⟨phi_advance_lt l l i hlt rfl, stackInv_advance i bs hinv⟩
  · -- open bracket: push and advance
    rw [Except.ok.injEq, Prod.mk.injEq] at hstep
    obtain ⟨hs, he⟩ := hstep
    subst he
    refine ⟨phi_advance_lt l l i hlt rfl, ?_⟩
    unfold StackInv
    rw [List.chain'_cons]
    exact ⟨le_refl _, stackInv_advance i bs hinv⟩
  · -- close bracket fires: pop, rewrite to pipe, jump back
    rcases bs with _ | ⟨b, rest⟩
    · simp at hstep
    · simp only at hstep
      rw [Except.ok.injEq, Prod.mk.injEq] at hstep
      obtain ⟨hs, he⟩ := hstep
      subst he
      have hchain : List.Chain' (fun a b => b ≤ a) (i :: b :: rest) := hinv
      rw [List.chain'_cons] at hchain
      have hb : b ≤ i := hchain.1
      constructor
      · show phiAux ((l.set i '|').drop b) b < phiAux (l.drop i) i
        have hmono := phiAux_mono (l.set i '|') (i - b) b
        rw [show b + (i - b) = i by omega] at hmono
        have hlen' : (l.set i '|').length = l.length := List.length_set ..
        have hdi := phiAux_drop (l.set i '|') i (by omega)
        have hset : (l.set i '|')[i] = '|' := List.getElem_set_eq (by omega)
        have hds : (l.set i '|').drop (i + 1) = l.drop (i + 1) :=
          drop_set_of_lt l '|' i (i + 1) (by omega)
        have hphi : phiAux (l.drop i) i =
            bracketCost ']' * 4 ^ i + phiAux (l.drop (i + 1)) (i + 1) := by
          rw [phiAux_drop l i hlt, hCl]
        rw [hset, hds] at hdi
        have c1 : bracketCost '|' = 1 := rfl
        have c3 : bracketCost ']' = 3 := rfl
        rw [c1, one_mul] at hdi
        rw [c3] at hphi
        rw [hdi] at hmono
        have hb4 : 0 < 4 ^ b := pow_pos (by omega) b
        omega
      · exact hchain.2
  · -- pipe: restore close bracket and advance
    rw [Except.ok.injEq, Prod.mk.injEq] at hstep
    obtain ⟨hs, he⟩ := hstep
    subst he
    refine ⟨?_, stackInv_advance i bs hinv⟩
    show phiAux ((l.set i ']').drop (i + 1)) (i + 1) < phiAux (l.drop i) i
    exact phi_advance_lt l (l.set i ']') i hlt
      (drop_set_of_lt l ']' i (i + 1) (by omega))
  · rw [Except.ok.injEq, Prod.mk.injEq] at hstep
    obtain ⟨hs, he⟩ := hstep
    subst he
    exact ⟨phi_advance_lt l l i hlt rfl, stackInv_advance i bs hinv⟩

lemma runFuel_succ (fuel : Nat) (e : CommandExecutor) :
    CommandExecutor.runFuel (fuel + 1) e =
      match e.step with
      | Except.ok (_, e') => CommandExecutor.runFuel fuel e'
      | Except.error StepError.EndOfCommands => some (RunOutcome.ok, e)
      | Except.error StepError.UnmatchedClose =>
          some (RunOutcome.unmatchedClose, e) := rfl

lemma runFuel_total_aux (n : Nat) :
    ∀ (e : CommandExecutor), StackInv e.state → phi e.state ≤ n →
      ∃ r, CommandExecutor.runFuel (n + 1) e = some r := by
  induction n with
  | zero =>
    intro e hinv hphi
    have hend : e.state.commands.length ≤ e.state.index := by
      by_contra hc
      push_neg at hc
      have h1 := bracketCost_pos e.state.commands[e.state.index]
      have h2 : 0 < 4 ^ e.state.index := pow_pos (by omega) _
      have h3 : 0 < phi e.state := by
        unfold phi
        rw [phiAux_drop e.state.commands e.state.index hc]
        have := Nat.mul_pos (by omega : 0 < bracketCost
          e.state.commands[e.state.index]) h2
        omega
      omega
    exact ⟨(RunOutcome.ok, e), by rw [runFuel_succ, step_eq_end e hend]⟩
  | succ n ih =>
    intro e hinv hphi
    rcases hs : e.step with ⟨err⟩ | ⟨s, e'⟩
    · cases err
      · exact ⟨(RunOutcome.ok, e), by rw [runFuel_succ, hs]⟩
      · exact ⟨(RunOutcome.unmatchedClose, e), by rw [runFuel_succ, hs]⟩
    · obtain ⟨hlt, hinv'⟩ := step_ok_props e e' s hs hinv
      obtain ⟨r, hr⟩ := ih e' hinv' (by omega)
      refine ⟨r, ?_⟩
      rw [runFuel_succ, hs]
      exact hr

lemma runFuel_ok_end (fuel : Nat) :
    ∀ (e ef : CommandExecutor),
      CommandExecutor.runFuel fuel e = some (RunOutcome.ok, ef) →
      ef.state.commands.length ≤ ef.state.index := by
  induction fuel with
  | zero => intro e ef h; simp [CommandExecutor.runFuel] at h
  | succ n ih =>
    intro e ef h
    rw [runFuel_succ] at h
    rcases hs : e.step with ⟨err⟩ | ⟨s, e'⟩
    · cases err
      · rw [hs] at h
        simp only [Option.some.injEq, Prod.mk.injEq, true_and] at h
        rw [← h]
        exact step_end_ge e hs
      · rw [hs] at h
        simp at h
    · rw [hs] at h
      exact ih e' ef h

/-- C5.  `run` terminates on every command string: for any commands and
any starting buffer there is a finite amount of fuel after which the
fuelled `run` has stopped, and a stop is either the unmatched-close
failure or normal completion with the cursor at or past the end of the
(rewritten) command string. -/
theorem exec_run_terminates (cmds : List Char) (buf : CFRBuffer) :
    ∃ fuel r,
      CommandExecutor.runFuel fuel (CommandExecutor.new cmds buf) = some r ∧
      (r.1 = RunOutcome.ok →
        r.2.state.commands.length ≤ r.2.state.index) := by
  obtain ⟨r, hr⟩ := runFuel_total_aux (phi (CommandExecutor.new cmds buf).state)
    (CommandExecutor.new cmds buf) (by simp [CommandExecutor.new, StackInv])
    (le_refl _)
  rcases r with ⟨out, ef⟩
  refine ⟨_, (out, ef), hr, ?_⟩
  intro hok
  subst hok
  exact runFuel_ok_end _ _ _ hr

/-- Witness for C5 at the concrete program `"[F]"` on a 4×4 buffer. -/
theorem exec_run_terminates_witness :
    ∃ fuel r,
      CommandExecutor.runFuel fuel
        (CommandExecutor.new ['[', 'F', ']'] (CFRBuffer.new 4 4)) = some r ∧
      (r.1 = RunOutcome.ok →
        r.2.state.commands.length ≤ r.2.state.index) :=
  exec_run_terminates ['[', 'F', ']'] (CFRBuffer.new 4 4)

/-! ### Unmatched open brackets and determinism -/

lemma getElem?_append_cons (pre : List Char) (c : Char) (X : List Char) :
    (pre ++ c :: X)[pre.length]? = some c := by
  rw [List.getElem?_append_right (le_refl pre.length)]
  simp

lemma set_append_cons (pre : List Char) (c a : Char) (X : List Char) :
    (pre ++ c :: X).set pre.length a = pre ++ a :: X := by
  induction pre with
  | nil => rfl
  | cons d ds ih =>
    show ((d :: ds) ++ c :: X).set (d :: ds).length a = (d :: ds) ++ a :: X
    simp only [List.cons_append, List.length_cons, List.set_cons_succ]
    rw [ih]

lemma step_plain (l : List Char) (i : Nat) (bs : List Nat) (buf : CFRBuffer)
    (p : CFRPainter) (c : Char) (hi : l[i]? = some c)
    (h1 : c ≠ '[') (h2 : c ≠ ']') (h3 : c ≠ '|') :
    ∃ s buf' p',
      CommandExecutor.step ⟨⟨l, i, bs⟩, buf, p⟩ =
        Except.ok (s, ⟨⟨l, i + 1, bs⟩, buf', p'⟩) := by
  have hd := step_eq_dispatch ⟨⟨l, i, bs⟩, buf, p⟩ c hi
  by_cases hC : c = 'C'
  · subst hC
    exact ⟨false, buf, p.change_color, by rw [hd, stepDispatch_C]⟩
  · by_cases hF : c = 'F'
    · subst hF
      exact ⟨false, (p.move_forward_and_draw buf).2,
        (p.move_forward_and_draw buf).1, by rw [hd, stepDispatch_F]⟩
    · by_cases hR : c = 'R'
      · subst hR
        exact ⟨false, buf, p.rotate, by rw [hd, stepDispatch_R]⟩
      · by_cases hS : c = 'S'
        · subst hS
          exact ⟨true, buf, p, by rw [hd, stepDispatch_S]⟩
        · exact ⟨false, buf, p,
            by rw [hd, stepDispatch_other c l i bs buf p hC hF hR hS h1 h2 h3]⟩

lemma steps_trans {a b c : CommandExecutor} (hab : Steps a b)
    (hbc : Steps b c) : Steps a c := by
  induction hbc with
  | refl => exact hab
  | tail _ hs ih => exact Steps.tail ih hs

lemma steps_single {e e' : CommandExecutor} {s : Bool}
    (h : e.step = Except.ok (s, e')) : Steps e e' :=
  Steps.tail (Steps.refl e) h

lemma runFuel_of_steps {e e' : CommandExecutor} (h : Steps e e') :
    ∀ (fuel : Nat) (r : RunOutcome × CommandExecutor),
      CommandExecutor.runFuel fuel e' = some r →
      ∃ fuel', CommandExecutor.runFuel fuel' e = some r := by
  induction h with
  | refl => exact fun fuel r hr => ⟨fuel, hr⟩
  | tail _ hs ih =>
    intro fuel r hr
    exact ih (fuel + 1) r (by rw [runFuel_succ, hs]; exact hr)

/-- Executing a balanced segment drives the cursor from its start to
just past its end, leaves the command string exactly as it was (every
`]` flipped to `|` during the run is flipped back), and returns with
the same `block_starts` stack; only painter and buffer change. -/
lemma bal_exec {B : List Char} (hB : Balanced B) :
    ∀ (pre post : List Char) (bs : List Nat) (buf : CFRBuffer)
      (p : CFRPainter),
      ∃ buf' p',
        Steps ⟨⟨pre ++ B ++ post, pre.length, bs⟩, buf, p⟩
          ⟨⟨pre ++ B ++ post, pre.length + B.length, bs⟩, buf', p'⟩ := by
  induction hB with
  | nil =>
    intro pre post bs buf p
    refine ⟨buf, p, ?_⟩
    simp only [List.append_nil, List.length_nil, Nat.add_zero]
    exact Steps.refl _
  | other hc1 hc2 hc3 hcs ih =>
    rename_i c cs
    intro pre post bs buf p
    have hget : (pre ++ (c :: cs) ++ post)[pre.length]? = some c := by
      rw [show pre ++ (c :: cs) ++ post = pre ++ c :: (cs ++ post) by simp]
      exact getElem?_append_cons pre c (cs ++ post)
    obtain ⟨s, buf1, p1, hstep⟩ :=
      step_plain (pre ++ (c :: cs) ++ post) pre.length bs buf p c hget
        hc1 hc2 hc3
    obtain ⟨buf2, p2, hsteps⟩ := ih (pre ++ [c]) post bs buf1 p1
    rw [show ((pre ++ [c]) ++ cs) ++ post = (pre ++ (c :: cs)) ++ post
        by simp,
      show (pre ++ [c]).length = pre.length + 1 by simp,
      show pre.length + 1 + cs.length = pre.length + (c :: cs).length
        by simp only [List.length_cons]; omega] at hsteps
    exact ⟨buf2, p2, steps_trans (steps_single hstep) hsteps⟩
  | bracket hbody hrest ihb ihr =>
    rename_i body rest
    intro pre post bs buf p
    -- step 1: the opening bracket pushes and advances
    have hget1 :
        (pre ++ ('[' :: body ++ ']' :: rest) ++ post)[pre.length]? =
          some '[' := by
      rw [show pre ++ ('[' :: body ++ ']' :: rest) ++ post =
          pre ++ '[' :: ((body ++ ']' :: rest) ++ post) by simp]
      exact getElem?_append_cons pre '[' _
    have hstep1 :
        CommandExecutor.step
          ⟨⟨pre ++ ('[' :: body ++ ']' :: rest) ++ post, pre.length, bs⟩,
            buf, p⟩ =
        Except.ok (false,
          ⟨⟨pre ++ ('[' :: body ++ ']' :: rest) ++ post, pre.length + 1,
            (pre.length + 1) :: bs⟩, buf, p⟩) := by
      rw [step_eq_dispatch _ '[' hget1, stepDispatch_open]
    -- step 2: first pass over the balanced body
    obtain ⟨buf1, p1, hsteps2⟩ :=
      ihb (pre ++ ['[']) (']' :: (rest ++ post)) ((pre.length + 1) :: bs)
        buf p
    rw [show ((pre ++ ['[']) ++ body) ++ ']' :: (rest ++ post) =
        (pre ++ ('[' :: body ++ ']' :: rest)) ++ post by simp,
      show (pre ++ ['[']).length = pre.length + 1 by simp] at hsteps2
    -- step 3: the close bracket fires, flips itself to `|`, jumps back
    have hget3 :
        (pre ++ ('[' :: body ++ ']' :: rest) ++ post)[pre.length + 1 +
          body.length]? = some ']' := by
      rw [show pre ++ ('[' :: body ++ ']' :: rest) ++ post =
          (pre ++ '[' :: body) ++ ']' :: (rest ++ post) by simp,
        show pre.length + 1 + body.length = (pre ++ '[' :: body).length
          by simp only [List.length_append, List.length_cons]; omega]
      exact getElem?_append_cons _ ']' _
    have hstep3 :
        CommandExecutor.step
          ⟨⟨pre ++ ('[' :: body ++ ']' :: rest) ++ post,
            pre.length + 1 + body.length, (pre.length + 1) :: bs⟩,
            buf1, p1⟩ =
        Except.ok (false,
          ⟨⟨(pre ++ ('[' :: body ++ ']' :: rest) ++ post).set
              (pre.length + 1 + body.length) '|', pre.length + 1, bs⟩,
            buf1, p1⟩) := by
      rw [step_eq_dispatch _ ']' hget3, stepDispatch_close_pop]
    have hflip :
        (pre ++ ('[' :: body ++ ']' :: rest) ++ post).set
            (pre.length + 1 + body.length) '|' =
          (pre ++ '[' :: body) ++ '|' :: (rest ++ post) := by
      rw [show pre ++ ('[' :: body ++ ']' :: rest) ++ post =
          (pre ++ '[' :: body) ++ ']' :: (rest ++ post) by simp,
        show pre.length + 1 + body.length = (pre ++ '[' :: body).length
          by simp only [List.length_append, List.length_cons]; omega]
      exact set_append_cons _ ']' '|' _
    rw [hflip] at hstep3
    -- step 4: second pass over the balanced body
    obtain ⟨buf2, p2, hsteps4⟩ :=
      ihb (pre ++ ['[']) ('|' :: (rest ++ post)) bs buf1 p1
    rw [show ((pre ++ ['[']) ++ body) ++ '|' :: (rest ++ post) =
        (pre ++ '[' :: body) ++ '|' :: (rest ++ post) by simp,
      show (pre ++ ['[']).length = pre.length + 1 by simp] at hsteps4
    -- step 5: the `|` flips back to `]` and the cursor advances past it
    have hget5 :
        ((pre ++ '[' :: body) ++ '|' :: (rest ++ post))[pre.length + 1 +
          body.length]? = some '|' := by
      rw [show pre.length + 1 + body.length = (pre ++ '[' :: body).length
          by simp only [List.length_append, List.length_cons]; omega]
      exact getElem?_append_cons _ '|' _
    have hstep5 :
        CommandExecutor.step
          ⟨⟨(pre ++ '[' :: body) ++ '|' :: (rest ++ post),
            pre.length + 1 + body.length, bs⟩, buf2, p2⟩ =
        Except.ok (false,
          ⟨⟨((pre ++ '[' :: body) ++ '|' :: (rest ++ post)).set
              (pre.length + 1 + body.length) ']',
            pre.length + 1 + body.length + 1, bs⟩, buf2, p2⟩) := by
      rw [step_eq_dispatch _ '|' hget5, stepDispatch_pipe]
    have hrestore :
        ((pre ++ '[' :: body) ++ '|' :: (rest ++ post)).set
            (pre.length + 1 + body.length) ']' =
          pre ++ ('[' :: body ++ ']' :: rest) ++ post := by
      rw [show pre.length + 1 + body.length = (pre ++ '[' :: body).length
          by simp only [List.length_append, List.length_cons]; omega,
        set_append_cons _ '|' ']' _]
      simp
    rw [hrestore] at hstep5
    -- step 6: the balanced tail after the pair
    obtain ⟨buf3, p3, hsteps6⟩ :=
      ihr (pre ++ '[' :: body ++ [']']) post bs buf2 p2
    rw [show ((pre ++ '[' :: body ++ [']']) ++ rest) ++ post =
        (pre ++ ('[' :: body ++ ']' :: rest)) ++ post by simp,
      show (pre ++ '[' :: body ++ [']']).length =
          pre.length + 1 + body.length + 1
        by simp only [List.length_append, List.length_cons,
            List.length_nil]; omega] at hsteps6
    -- assemble, normalising the final cursor index
    refine ⟨buf3, p3, ?_⟩
    rw [show pre.length + ('[' :: body ++ ']' :: rest).length =
        pre.length + 1 + body.length + 1 + rest.length
      by simp only [List.length_cons, List.length_append]; omega]
    exact steps_trans (steps_single hstep1)
      (steps_trans hsteps2
        (steps_trans (steps_single hstep3)
          (steps_trans hsteps4
            (steps_trans (steps_single hstep5) hsteps6))))

/-- Executing an `OpenChain` string runs every balanced block to
completion, pushes one entry per unmatched `[`, and reaches the end of
the string with exactly those entries on top of the initial stack. -/
lemma openchain_exec {cs : List Char} {q : Nat} {st : List Nat}
    (h : OpenChain cs q st) :
    ∀ (pre : List Char) (bs : List Nat) (buf : CFRBuffer)
      (p : CFRPainter), q = pre.length →
      ∃ buf' p',
        Steps ⟨⟨pre ++ cs, pre.length, bs⟩, buf, p⟩
          ⟨⟨pre ++ cs, pre.length + cs.length, st ++ bs⟩, buf', p'⟩ := by
  induction h with
  | bal q' hbal =>
    intro pre bs buf pnt _
    obtain ⟨buf', p', hsteps⟩ := bal_exec hbal pre [] bs buf pnt
    rw [List.append_nil] at hsteps
    exact ⟨buf', p', by simpa using hsteps⟩
  | openBr hB hrest ihrest =>
    rename_i B rest q' st'
    intro pre bs buf pnt hq
    subst hq
    -- the leading balanced block
    obtain ⟨buf1, p1, hsteps1⟩ := bal_exec hB pre ('[' :: rest) bs buf pnt
    -- the unmatched open bracket pushes its start index
    have hget :
        ((pre ++ B) ++ '[' :: rest)[pre.length + B.length]? = some '[' := by
      rw [show pre.length + B.length = (pre ++ B).length by simp]
      exact getElem?_append_cons _ '[' _
    have hstep2 :
        CommandExecutor.step
          ⟨⟨(pre ++ B) ++ '[' :: rest, pre.length + B.length, bs⟩,
            buf1, p1⟩ =
        Except.ok (false,
          ⟨⟨(pre ++ B) ++ '[' :: rest, pre.length + B.length + 1,
            (pre.length + B.length + 1) :: bs⟩, buf1, p1⟩) := by
      rw [step_eq_dispatch _ '[' hget, stepDispatch_open]
    -- the rest of the chain
    obtain ⟨buf2, p2, hsteps3⟩ :=
      ihrest (pre ++ B ++ ['[']) ((pre.length + B.length + 1) :: bs)
        buf1 p1
        (by simp only [List.length_append, List.length_cons,
          List.length_nil] <;> omega)
    rw [show ((pre ++ B) ++ ['[']) ++ rest = (pre ++ B) ++ '[' :: rest
        by simp,
      show (pre ++ B ++ ['[']).length = pre.length + B.length + 1
        by simp only [List.length_append, List.length_cons,
          List.length_nil] <;> omega] at hsteps3
    refine ⟨buf2, p2, ?_⟩
    rw [show pre ++ (B ++ '[' :: rest) = (pre ++ B) ++ '[' :: rest from
        (List.append_assoc pre B ('[' :: rest)).symm,
      show pre.length + (B ++ '[' :: rest).length =
          pre.length + B.length + 1 + rest.length
        by simp only [List.length_append, List.length_cons]; omega,
      show (st' ++ [pre.length + B.length + 1]) ++ bs =
          st' ++ (pre.length + B.length + 1) :: bs by simp]
    exact steps_trans hsteps1
      (steps_trans (steps_single hstep2) hsteps3)

/-- C9, amended.  An unmatched open bracket is never itself an error:
for every command string over the public alphabet (no
executor-internal `|`) in which no `]` fires on an empty stack — that
is, any string that decomposes into balanced blocks separated by
unmatched `[`s (`OpenChain cmds 0 st`, covering e.g. `"[]["` with
`st = [3]`) — `run` completes successfully, and the leftover
`block_starts` is exactly `st`: one entry, the index one past the `[`,
per unmatched open bracket, most recent first, hence non-empty when an
unmatched `[` exists.  The original universal claim is refuted only by
strings where a `]` fires on an empty stack, such as `"]["` (see the
counterexample): those abort with the unmatched-close error — an
unmatched-open failure as such does not exist. -/
theorem exec_unmatched_open_not_error (cmds : List Char)
    (buf : CFRBuffer) (st : List Nat)
    (hdec : OpenChain cmds 0 st) (hne : st ≠ []) :
    ∃ fuel ef,
      CommandExecutor.runFuel fuel (CommandExecutor.new cmds buf) =
        some (RunOutcome.ok, ef) ∧
      ef.state.block_starts = st ∧ ef.state.block_starts ≠ [] := by
  obtain ⟨buf', p', hsteps⟩ := openchain_exec hdec [] [] buf
    ({ CFRPainter.new with
        x := (buf.width - 1) / 2, y := (buf.height - 1) / 2 }) rfl
  have hend :
      CommandExecutor.runFuel 1
        ⟨⟨([] : List Char) ++ cmds, ([] : List Char).length + cmds.length,
          st ++ []⟩, buf', p'⟩ =
      some (RunOutcome.ok,
        ⟨⟨([] : List Char) ++ cmds, ([] : List Char).length + cmds.length,
          st ++ []⟩, buf', p'⟩) := by
    rw [runFuel_succ, step_eq_end _ (by simp)]
  obtain ⟨fuel, hf⟩ := runFuel_of_steps hsteps 1 _ hend
  exact ⟨fuel, _, hf, by simp, by simpa using hne⟩

/-- Witness for C9's amended theorem, at the reviewer-relevant string
`"[]["`: an unmatched `[` alongside a matched pair completes
successfully with leftover stack `[3]`. -/
theorem exec_unmatched_open_not_error_witness :
    ∃ fuel ef,
      CommandExecutor.runFuel fuel
        (CommandExecutor.new ['[', ']', '['] (CFRBuffer.new 2 2)) =
        some (RunOutcome.ok, ef) ∧
      ef.state.block_starts = [3] ∧ ef.state.block_starts ≠ [] :=
  exec_unmatched_open_not_error ['[', ']', '['] (CFRBuffer.new 2 2) [3]
    (@OpenChain.openBr ['[', ']'] [] 0 []
      (@Balanced.bracket [] [] Balanced.nil Balanced.nil)
      (OpenChain.bal 3 Balanced.nil))
    (by decide)

/-- C10.  Execution is deterministic: running the same command string
with the same fuel against two freshly constructed buffers of the same
width and height (`CFRBuffer::new` always fills with `Black`) yields
the same result — both runs stop the same way and the final buffers
agree cell for cell. -/
theorem exec_deterministic (cmds : List Char) (w h fuel : Nat)
    (b1 b2 : CFRBuffer)
    (h1 : b1 = CFRBuffer.new w h) (h2 : b2 = CFRBuffer.new w h) :
    CommandExecutor.runFuel fuel (CommandExecutor.new cmds b1) =
      CommandExecutor.runFuel fuel (CommandExecutor.new cmds b2) ∧
    (∀ r1 r2,
      CommandExecutor.runFuel fuel (CommandExecutor.new cmds b1) = some r1 →
      CommandExecutor.runFuel fuel (CommandExecutor.new cmds b2) = some r2 →
      r1.1 = r2.1 ∧ ∀ j : Nat, r1.2.buffer.data[j]? = r2.2.buffer.data[j]?) := by
  subst h1
  subst h2
  refine ⟨rfl, ?_⟩
  intro r1 r2 ha hb
  rw [ha] at hb
  obtain rfl : r1 = r2 := by injection hb
  exact ⟨rfl, fun j => rfl⟩

/-- Witness for C10: the two runs of `"F"` on two fresh 4×4 buffers
agree. -/
theorem exec_deterministic_witness :
    CommandExecutor.runFuel 2
        (CommandExecutor.new ['F'] (CFRBuffer.new 4 4)) =
      CommandExecutor.runFuel 2
        (CommandExecutor.new ['F'] (CFRBuffer.new 4 4)) :=
  (exec_deterministic ['F'] 4 4 2 (CFRBuffer.new 4 4) (CFRBuffer.new 4 4)
    rfl rfl).1

end CFRS
